import Mathlib

/-!
Verification of the `create-exports` package of this repository
(`packages/create-exports/index.ts`): generation of the `package.json`
`exports` and `bin` fields from the `.pub.ts(x)` / `.bin.ts(x)`
file-naming conventions.

Strings are modelled through `String.data` (lists of characters), with
executable char-list helpers standing in for the JavaScript string and
regex operations used by the source. The `localeCompare` comparator used
by `Array.prototype.sort` is an external ICU function and is therefore a
parameter `cmp : String → String → Ordering` of the generators.
-/

namespace CreateExports

/-! ### Models of the external path and string primitives -/

/-- Model of `node:path`'s `relative(cwd, file)` for the inputs in scope:
the discovered files are produced by `fast-glob` relative to `cwd` and are
already normalized, and on such paths `relative` is the identity. -/
def pathRelative (cwd file : String) : String := file

/-- Model of `node:path`'s `join(cwd, file)` for a directory and a
relative file path. -/
def pathJoin (cwd file : String) : String := cwd ++ "/" ++ file

/-- Model of JavaScript `String.prototype.split` with a one-character
separator: the list of separator-free groups; the empty string yields a
single empty group, exactly as in JavaScript. -/
def splitOnChar (sep : Char) : List Char → List (List Char)
  | [] => [[]]
  | c :: rest =>
    let r := splitOnChar sep rest
    if c = sep then [] :: r
    else
      match r with
      | [] => [[c]]
      | g :: gs => (c :: g) :: gs

/-- The `/`-separated segments of a path, as `path.split("/")` yields them. -/
def splitSlash (s : String) : List String :=
  (splitOnChar '/' s.data).map (fun l => ⟨l⟩)

/-- Model of JavaScript `String.prototype.endsWith`. -/
def strEndsWith (s t : String) : Bool := t.data.reverse.isPrefixOf s.data.reverse

/-- Model of JavaScript `String.prototype.startsWith`. -/
def strStartsWith (s t : String) : Bool := t.data.isPrefixOf s.data

/-- Model of JavaScript `String.prototype.trim`: whitespace removed from
both ends. -/
def trimWs (s : String) : String :=
  ⟨((s.data.dropWhile Char.isWhitespace).reverse.dropWhile Char.isWhitespace).reverse⟩

/-- Removal of a fixed suffix from a character list: `some` of the rest
when the suffix is present, `none` otherwise. -/
def dropSuffixL (suf l : List Char) : Option (List Char) :=
  if suf <:+ l then some (l.take (l.length - suf.length)) else none

/-- Model of `relativePath.replace(/\.pub\.(ts|tsx)$/, "")` (source line
216): a final `.pub.ts` or `.pub.tsx` is stripped, anything else is left
unchanged. The two suffixes cannot both match, so the order of the two
tests is immaterial. -/
def stripPub (s : String) : String :=
  match dropSuffixL ".pub.tsx".data s.data with
  | some r => ⟨r⟩
  | none =>
    match dropSuffixL ".pub.ts".data s.data with
    | some r => ⟨r⟩
    | none => s

/-- Model of `relativePath.replace(/\.bin\.(ts|tsx)$/, "")` (source line
237). -/
def stripBin (s : String) : String :=
  match dropSuffixL ".bin.tsx".data s.data with
  | some r => ⟨r⟩
  | none =>
    match dropSuffixL ".bin.ts".data s.data with
    | some r => ⟨r⟩
    | none => s

/-! ### Path parsing (source lines 212–251) -/

/-- Result of parsing a TypeScript file path (source interface
`ParsedFilePath`, lines 152–157). -/
structure ParsedFilePath where
  parsedPath : String
  name : String
deriving DecidableEq, Repr

/-- Embedding of `parseExportPath` (source lines 212–228). -/
def parseExportPath (file cwd : String) : ParsedFilePath :=
  let relativePath := pathRelative cwd file
  let parsedPath := stripPub relativePath
  let segments := splitSlash parsedPath
  let isIndex := segments.getLastD "" = "index"
  let name :=
    if isIndex then
      if segments.length = 1 then "."
      else "./" ++ String.intercalate "/" segments.dropLast
    else "./" ++ parsedPath
  { parsedPath := parsedPath, name := name }

/-- Membership in the character class `[a-z0-9]` of the sanitizing
regexes of `parseBinaryPath`. -/
def isSafeChar (c : Char) : Bool :=
  ('a' ≤ c && c ≤ 'z') || ('0' ≤ c && c ≤ '9')

/-- First stage of `.replace(/[^a-z0-9]+/g, "-")`: every character outside
`[a-z0-9]` becomes a dash. -/
def dashify (cs : List Char) : List Char :=
  cs.map (fun c => if isSafeChar c then c else '-')

/-- Second stage of `.replace(/[^a-z0-9]+/g, "-")`: consecutive dashes are
collapsed, so each maximal run of replaced characters leaves one dash. -/
def squeezeDashes : List Char → List Char
  | [] => []
  | [c] => [c]
  | c :: d :: rest =>
    if c = '-' && d = '-' then squeezeDashes (d :: rest)
    else c :: squeezeDashes (d :: rest)

/-- Model of `.replace(/^-+|-+$/g, "")` on a dash-collapsed string:
leading and trailing dashes are removed. -/
def trimDashes (cs : List Char) : List Char :=
  ((cs.dropWhile (fun c => c = '-')).reverse.dropWhile (fun c => c = '-')).reverse

/-- The name-sanitizing pipeline of `parseBinaryPath` (source lines
239–244): `toLowerCase()` (modelled by `Char.toLower`, which agrees with
JavaScript on the ASCII inputs in scope), then the two regex
replacements. -/
def sanitizeBinName (s : String) : String :=
  ⟨trimDashes (squeezeDashes (dashify (s.data.map Char.toLower)))⟩

/-- Embedding of `parseBinaryPath` (source lines 233–251); the thrown
`Error` is modelled as `Except.error` of its message. `split("/")` never
yields an empty array, so the `pop()` of the source is the last
segment. -/
def parseBinaryPath (file cwd : String) : Except String ParsedFilePath :=
  let relativePath := pathRelative cwd file
  let parsedPath := stripBin relativePath
  let name := sanitizeBinName ((splitSlash parsedPath).getLastD "")
  if name = "" then
    Except.error ("Invalid name for binary file: " ++ file)
  else
    Except.ok { parsedPath := parsedPath, name := name }

/-- Embedding of `validateBinaryFile` (source lines 256–265): `readFile`
stands for `node_fs.readFileSync`; a thrown `Error` is `Except.error` of
its message. -/
def validateBinaryFile (readFile : String → String) (filePath : String) :
    Except String Unit :=
  let content := readFile filePath
  let firstLine := trimWs ⟨(splitOnChar '\n' content.data).headD []⟩
  if strStartsWith firstLine "#!/usr/bin/env node" then Except.ok ()
  else
    Except.error ("Binary file " ++ filePath
      ++ " must start with \"#!/usr/bin/env node\" shebang. Found: \"" ++ firstLine ++ "\"")

/-! ### Records and sorting (source lines 270–309) -/

/-- JavaScript object assignment `obj[k] = v` on a string-keyed record
kept as its entry list (a JavaScript object holds each key at most once):
an existing key keeps its position and receives the new value, a fresh
key is appended at the end. -/
def recordSet {V : Type} : List (String × V) → String → V → List (String × V)
  | [], k, v => [(k, v)]
  | (k', v') :: rest, k, v =>
    if k' = k then (k, v) :: rest
    else (k', v') :: recordSet rest k v

/-- Lookup of a key in an entry list, first match first, as JavaScript
property access reads a record. -/
def lookupKey {V : Type} (m : List (String × V)) (k : String) : Option V :=
  match m with
  | [] => none
  | (k', v) :: rest => if k' = k then some v else lookupKey rest k

/-- The order into which `.sort(([a], [b]) => a.localeCompare(b))` puts
two entries: `a` need not move after `b` when the comparator does not
order `a`'s key strictly after `b`'s. -/
def entryLe {V : Type} (cmp : String → String → Ordering) (a b : String × V) : Prop :=
  ¬ cmp a.1 b.1 = Ordering.gt

instance entryLeDecidable {V : Type} (cmp : String → String → Ordering) :
    DecidableRel (@entryLe V cmp) := by
  intro a b
  unfold entryLe
  infer_instance

/-- Model of `Object.fromEntries(Object.entries(m).sort(([a], [b]) =>
a.localeCompare(b)))`: a stable sort of the entry list by the comparator
on keys (source lines 286–288 and 306–308). -/
def sortEntries {V : Type} (cmp : String → String → Ordering)
    (m : List (String × V)) : List (String × V) :=
  List.insertionSort (entryLe cmp) m

/-- Shape of one generated `exports` entry (source lines 280–283); field
order follows the source object literal. -/
structure ExportRecord where
  default : String
  types : String
deriving DecidableEq, Repr

/-- The record built for one public file (source lines 279–283). -/
def exportEntry (cwd outDir declarationDir file : String) : String × ExportRecord :=
  let p := parseExportPath file cwd
  (p.name, { default := "./" ++ outDir ++ "/" ++ p.parsedPath ++ ".pub.js"
             types := "./" ++ declarationDir ++ "/" ++ p.parsedPath ++ ".pub.d.ts" })

/-- The `exports` record before sorting: the `for` loop of
`generateExports` (source lines 276–284). -/
def exportsRecord (files : List String) (cwd outDir declarationDir : String) :
    List (String × ExportRecord) :=
  files.foldl (fun m file =>
    recordSet m (exportEntry cwd outDir declarationDir file).1
      (exportEntry cwd outDir declarationDir file).2) []

/-- Embedding of `generateExports` (source lines 270–289). -/
def generateExports (cmp : String → String → Ordering) (files : List String)
    (cwd outDir declarationDir : String) : List (String × ExportRecord) :=
  sortEntries cmp (exportsRecord files cwd outDir declarationDir)

/-- One pass of the `for` loop of `generateBin` (source lines 301–304)
over the remaining files, carrying the record built so far; a throw
inside `parseBinaryPath` aborts the loop and propagates. -/
def binRecordLoop (cwd outDir : String) :
    List String → List (String × String) → Except String (List (String × String))
  | [], m => Except.ok m
  | file :: rest, m =>
    match parseBinaryPath file cwd with
    | Except.error e => Except.error e
    | Except.ok p =>
      binRecordLoop cwd outDir rest
        (recordSet m p.name ("./" ++ outDir ++ "/" ++ p.parsedPath ++ ".bin.js"))

/-- The `bin` record before sorting: the whole `for` loop of
`generateBin` started on the empty record. -/
def binRecordM (files : List String) (cwd outDir : String) :
    Except String (List (String × String)) :=
  binRecordLoop cwd outDir files []

/-- Embedding of `generateBin` (source lines 294–309). -/
def generateBin (cmp : String → String → Ordering) (files : List String)
    (cwd outDir : String) : Except String (List (String × String)) :=
  match binRecordM files cwd outDir with
  | Except.error e => Except.error e
  | Except.ok bin => Except.ok (sortEntries cmp bin)

/-! ### The manifest and `updatePackageJson` (source lines 314–323) -/

/-- The manifest fields the generator touches, plus an uninterpreted entry
list `rest` standing for every other `package.json` field (which
`{ ...pkg }` copies verbatim). `none` models an absent field. -/
structure PackageJson where
  exports : Option (List (String × ExportRecord)) := none
  bin : Option (List (String × String)) := none
  rest : List (String × String) := []
deriving DecidableEq, Repr

/-- Embedding of `updatePackageJson` (source lines 314–323):
`Object.keys(bin).length ? bin : undefined` keeps `bin` only when the
computed mapping is non-empty. -/
def updatePackageJson (pkg : PackageJson) (exports : List (String × ExportRecord))
    (bin : List (String × String)) : PackageJson :=
  { pkg with
    exports := some exports
    bin := if bin.length ≠ 0 then some bin else none }

/-- Model of the external `sort-package-json` library: it only reorders
the keys of the serialized document, and this model tracks fields, not
their order, so it is the identity here. -/
def sortPackageJson (pkg : PackageJson) : PackageJson := pkg

/-! ### The `createExports` run (source lines 331–448) -/

/-- The inputs `createExports` has in hand once the reads of
`package.json` and `tsconfig.json` and the two globs are done (source
lines 332–354): `readFile` stands for `node_fs.readFileSync`. -/
structure CreateExportsEnv where
  pkg : PackageJson
  outDir : String
  declarationDir : String
  publicFiles : List String
  binFiles : List String
  readFile : String → String
  cwd : String

/-- Observable outcome of a `createExports` run: the manifest written to
disk, the dry-run report (nothing written), or a thrown error (nothing
written). -/
inductive RunOutcome where
  | wrote (pkg : PackageJson)
  | reported (exports : List (String × ExportRecord)) (bin : List (String × String))
      (binValidationErrors : List String)
  | threw (msg : String)
deriving DecidableEq, Repr

/-- One pass of the validation loop of `createExports` (source lines
360–367) over the remaining files, carrying the error messages and the
surviving binary files accumulated so far. -/
def collectLoop (readFile : String → String) (cwd : String) :
    List String → List String × List String → List String × List String
  | [], acc => acc
  | file :: rest, acc =>
    match validateBinaryFile readFile (pathJoin cwd file) with
    | Except.ok _ => collectLoop readFile cwd rest (acc.1, acc.2 ++ [file])
    | Except.error e => collectLoop readFile cwd rest (acc.1 ++ [e], acc.2)

/-- The whole validation loop of `createExports` (source lines 357–367):
the accumulated error messages and the surviving binary files, in
order. -/
def collectBinValidation (readFile : String → String) (cwd : String)
    (binFiles : List String) : List String × List String :=
  collectLoop readFile cwd binFiles ([], [])

/-- Embedding of the computational core of `createExports` (source lines
356–448), after the configuration reads and globs. -/
def createExports (cmp : String → String → Ordering) (env : CreateExportsEnv)
    (dryRun : Bool) : RunOutcome :=
  let acc := collectBinValidation env.readFile env.cwd env.binFiles
  let binValidationErrors := acc.1
  let validBinFiles := acc.2
  let exports := generateExports cmp env.publicFiles env.cwd env.outDir env.declarationDir
  match generateBin cmp validBinFiles env.cwd env.outDir with
  | Except.error e => RunOutcome.threw e
  | Except.ok bin =>
    let updatedPkg := updatePackageJson env.pkg exports bin
    let sortedPkg := sortPackageJson updatedPkg
    if dryRun then RunOutcome.reported exports bin binValidationErrors
    else if 0 < binValidationErrors.length then
      RunOutcome.threw ("Binary file validation failed:\n"
        ++ String.intercalate "\n" binValidationErrors)
    else RunOutcome.wrote sortedPkg

/-! ### The spec's own description of the export key (spec §4.1) -/

/-- Export key exactly as spec §4.1 words it, stated on the
suffix-stripped path: a sole `index` segment names the package root `.`;
a final `index` segment after others promotes its directory, `./` plus
the other segments joined by `/`; any other stripped path `p` becomes
`./p`. -/
def specExportKey (stripped : String) : String :=
  match (splitSlash stripped).reverse with
  | [] => "./" ++ stripped
  | last :: others =>
    if last = "index" then
      if others = [] then "."
      else "./" ++ String.intercalate "/" others.reverse
    else "./" ++ stripped

/-! ### Statement-side abbreviations -/

/-- The command name `parseBinaryPath` computes for a file (its `name`
when it succeeds). -/
def binCommandName (cwd file : String) : String :=
  sanitizeBinName ((splitSlash (stripBin (pathRelative cwd file))).getLastD "")

/-- The `bin` entry built for one binary file (source line 303). -/
def binEntry (cwd outDir file : String) : String × String :=
  (binCommandName cwd file,
    "./" ++ outDir ++ "/" ++ stripBin (pathRelative cwd file) ++ ".bin.js")

/-! ### A concrete comparator for closed instances

`localeCompare` is an external ICU function; the closed witnesses and
counterexamples instantiate the comparator parameter with plain
code-point comparison, which satisfies every comparator law the theorems
assume. -/

/-- Three-way comparison of two characters by code point. -/
def cmpChar (a b : Char) : Ordering :=
  if a < b then Ordering.lt else if a = b then Ordering.eq else Ordering.gt

/-- Lexicographic three-way comparison of two character lists. -/
def cmpChars : List Char → List Char → Ordering
  | [], [] => Ordering.eq
  | [], _ :: _ => Ordering.lt
  | _ :: _, [] => Ordering.gt
  | a :: as, b :: bs =>
    match cmpChar a b with
    | Ordering.eq => cmpChars as bs
    | o => o

/-- Lexicographic code-point comparator on strings, the stand-in for
`localeCompare` in closed instances. -/
def codeCmp (a b : String) : Ordering := cmpChars a.data b.data

/-! ### Laws of the concrete comparator -/

lemma cmpChar_lt_iff (a b : Char) : cmpChar a b = Ordering.lt ↔ a < b := by
  unfold cmpChar
  rcases lt_trichotomy a b with h | h | h
  · rw [if_pos h]
    simp [h]
  · subst h
    rw [if_neg (lt_irrefl a), if_pos rfl]
    simp [lt_irrefl]
  · rw [if_neg (lt_asymm h), if_neg (ne_of_gt h)]
    simp [lt_asymm h]

lemma cmpChar_eq_iff (a b : Char) : cmpChar a b = Ordering.eq ↔ a = b := by
  unfold cmpChar
  rcases lt_trichotomy a b with h | h | h
  · rw [if_pos h]
    simp [ne_of_lt h]
  · subst h
    rw [if_neg (lt_irrefl a), if_pos rfl]
    simp
  · rw [if_neg (lt_asymm h), if_neg (ne_of_gt h)]
    simp [ne_of_gt h]

lemma cmpChar_gt_iff (a b : Char) : cmpChar a b = Ordering.gt ↔ b < a := by
  unfold cmpChar
  rcases lt_trichotomy a b with h | h | h
  · rw [if_pos h]
    simp [lt_asymm h]
  · subst h
    rw [if_neg (lt_irrefl a), if_pos rfl]
    simp [lt_irrefl]
  · rw [if_neg (lt_asymm h), if_neg (ne_of_gt h)]
    simp [h]

lemma cmpChars_eq_iff : ∀ as bs : List Char, cmpChars as bs = Ordering.eq ↔ as = bs
  | [], [] => by simp [cmpChars]
  | [], _ :: _ => by simp [cmpChars]
  | _ :: _, [] => by simp [cmpChars]
  | a :: as, b :: bs => by
    cases hab : cmpChar a b with
    | lt =>
      have hne : a ≠ b := fun h => by
        rw [h, (cmpChar_eq_iff b b).mpr rfl] at hab
        cases hab
      simp [cmpChars, hab, hne]
    | eq =>
      have h : a = b := (cmpChar_eq_iff a b).mp hab
      subst h
      simp [cmpChars, hab, cmpChars_eq_iff as bs]
    | gt =>
      have hne : a ≠ b := fun h => by
        rw [h, (cmpChar_eq_iff b b).mpr rfl] at hab
        cases hab
      simp [cmpChars, hab, hne]

lemma cmpChars_swap : ∀ as bs : List Char, cmpChars bs as = (cmpChars as bs).swap
  | [], [] => by simp [cmpChars, Ordering.swap]
  | [], _ :: _ => by simp [cmpChars, Ordering.swap]
  | _ :: _, [] => by simp [cmpChars, Ordering.swap]
  | a :: as, b :: bs => by
    rcases lt_trichotomy a b with h | h | h
    · have h1 : cmpChar a b = Ordering.lt := (cmpChar_lt_iff a b).mpr h
      have h2 : cmpChar b a = Ordering.gt := (cmpChar_gt_iff b a).mpr h
      simp [cmpChars, h1, h2, Ordering.swap]
    · subst h
      have h1 : cmpChar a a = Ordering.eq := (cmpChar_eq_iff a a).mpr rfl
      simp [cmpChars, h1, cmpChars_swap as bs]
    · have h1 : cmpChar a b = Ordering.gt := (cmpChar_gt_iff a b).mpr h
      have h2 : cmpChar b a = Ordering.lt := (cmpChar_lt_iff b a).mpr h
      simp [cmpChars, h1, h2, Ordering.swap]

lemma cmpChars_lt_trans :
    ∀ as bs cs : List Char, cmpChars as bs = Ordering.lt →
      cmpChars bs cs = Ordering.lt → cmpChars as cs = Ordering.lt
  | [], [], _ => by
    intro h1 _
    simp [cmpChars] at h1
  | [], _ :: _, [] => by
    intro _ h2
    simp [cmpChars] at h2
  | [], _ :: _, _ :: _ => by
    intro _ _
    simp [cmpChars]
  | _ :: _, [], _ => by
    intro h1 _
    simp [cmpChars] at h1
  | _ :: _, _ :: _, [] => by
    intro _ h2
    simp [cmpChars] at h2
  | a :: as, b :: bs, c :: cs => by
    intro h1 h2
    cases hab : cmpChar a b with
    | lt =>
      cases hbc : cmpChar b c with
      | lt =>
        have hac : cmpChar a c = Ordering.lt :=
          (cmpChar_lt_iff a c).mpr
            (lt_trans ((cmpChar_lt_iff a b).mp hab) ((cmpChar_lt_iff b c).mp hbc))
        simp [cmpChars, hac]
      | eq =>
        have h : b = c := (cmpChar_eq_iff b c).mp hbc
        subst h
        simp [cmpChars, hab]
      | gt =>
        rw [cmpChars] at h2
        simp [hbc] at h2
    | eq =>
      have h : a = b := (cmpChar_eq_iff a b).mp hab
      subst h
      rw [cmpChars] at h1 h2
      simp only [hab] at h1
      cases hac : cmpChar a c with
      | lt => simp [cmpChars, hac]
      | eq =>
        simp only [hac] at h2
        simp [cmpChars, hac, cmpChars_lt_trans as bs cs h1 h2]
      | gt =>
        simp only [hac] at h2
        cases h2
    | gt =>
      rw [cmpChars] at h1
      simp [hab] at h1

lemma codeCmp_cases (a b : String) :
    ¬ codeCmp a b = Ordering.gt ↔ codeCmp a b = Ordering.lt ∨ codeCmp a b = Ordering.eq := by
  cases h : codeCmp a b <;> simp

lemma codeCmp_total (a b : String) :
    ¬ codeCmp a b = Ordering.gt ∨ ¬ codeCmp b a = Ordering.gt := by
  by_cases h : codeCmp a b = Ordering.gt
  · right
    unfold codeCmp at h ⊢
    rw [cmpChars_swap, h]
    simp [Ordering.swap]
  · exact Or.inl h

lemma codeCmp_eq_eq (a b : String) (h : codeCmp a b = Ordering.eq) : a = b := by
  unfold codeCmp at h
  exact String.ext (cmpChars_eq_iff _ _ |>.mp h)

lemma codeCmp_le_trans (a b c : String) (h1 : ¬ codeCmp a b = Ordering.gt)
    (h2 : ¬ codeCmp b c = Ordering.gt) : ¬ codeCmp a c = Ordering.gt := by
  rcases (codeCmp_cases a b).mp h1 with hab | hab
  · rcases (codeCmp_cases b c).mp h2 with hbc | hbc
    · have : codeCmp a c = Ordering.lt :=
        cmpChars_lt_trans a.data b.data c.data hab hbc
      simp [this]
    · have : b = c := codeCmp_eq_eq b c hbc
      subst this
      simp [hab]
  · have : a = b := codeCmp_eq_eq a b hab
    subst this
    exact h2

lemma codeCmp_antisymm (a b : String) (h1 : ¬ codeCmp a b = Ordering.gt)
    (h2 : ¬ codeCmp b a = Ordering.gt) : a = b := by
  rcases (codeCmp_cases a b).mp h1 with hab | hab
  · exfalso
    apply h2
    unfold codeCmp at hab ⊢
    rw [cmpChars_swap, hab]
    rfl
  · exact codeCmp_eq_eq a b hab

/-! ### Path-splitting and suffix-stripping facts -/

lemma splitOnChar_ne_nil (sep : Char) : ∀ cs : List Char, splitOnChar sep cs ≠ []
  | [] => by simp [splitOnChar]
  | c :: rest => by
    simp only [splitOnChar]
    split
    · simp
    · split <;> simp

lemma splitSlash_ne_nil (s : String) : splitSlash s ≠ [] := by
  unfold splitSlash
  simp [splitOnChar_ne_nil '/' s.data]

lemma dropSuffixL_append (suf l : List Char) : dropSuffixL suf (l ++ suf) = some l := by
  unfold dropSuffixL
  rw [if_pos (List.suffix_append l suf)]
  congr 1
  rw [List.length_append, Nat.add_sub_cancel]
  exact List.take_left l suf

lemma dropSuffixL_getLast (suf l : List Char) (c c' : Char) (hc : suf.getLast? = some c)
    (hc' : l.getLast? = some c') (hne : c ≠ c') : dropSuffixL suf l = none := by
  unfold dropSuffixL
  rw [if_neg]
  intro hsuf
  obtain ⟨t, ht⟩ := hsuf
  rw [← ht, List.getLast?_append, hc] at hc'
  simp at hc'
  exact hne hc'

lemma stripPub_append_ts (s : String) : stripPub (s ++ ".pub.ts") = s := by
  unfold stripPub
  rw [String.data_append]
  rw [dropSuffixL_getLast ".pub.tsx".data (s.data ++ ".pub.ts".data) 'x' 's' rfl
    (by rw [List.getLast?_append]; rfl) (by decide)]
  rw [dropSuffixL_append]

lemma stripPub_append_tsx (s : String) : stripPub (s ++ ".pub.tsx") = s := by
  unfold stripPub
  rw [String.data_append]
  rw [dropSuffixL_append]

lemma parseExportPath_congr (q r cwd : String) (h : stripPub q = stripPub r) :
    parseExportPath q cwd = parseExportPath r cwd := by
  simp only [parseExportPath, pathRelative, h]

lemma exportName_eq_specExportKey (stripped : String) :
    (if (splitSlash stripped).getLastD "" = "index" then
       if (splitSlash stripped).length = 1 then "."
       else "./" ++ String.intercalate "/" (splitSlash stripped).dropLast
     else "./" ++ stripped) = specExportKey stripped := by
  obtain hnil | ⟨l, x, hx⟩ := (splitSlash stripped).eq_nil_or_concat
  · exact absurd hnil (splitSlash_ne_nil stripped)
  · rw [List.concat_eq_append] at hx
    unfold specExportKey
    rw [hx]
    have hrev : (l ++ [x]).reverse = x :: l.reverse := by simp
    rw [hrev, List.getLastD_concat, List.dropLast_concat, List.length_append]
    by_cases hxi : x = "index"
    · subst hxi
      cases l with
      | nil => simp
      | cons y l' => simp
    · simp [hxi]

/-! ### Facts about the binary-name sanitizer -/

lemma mem_squeezeDashes (x : Char) (hx : x ≠ '-') :
    ∀ cs : List Char, x ∈ cs → x ∈ squeezeDashes cs
  | [] => by simp
  | [c] => by simp [squeezeDashes]
  | c :: d :: rest => by
    intro hm
    rw [squeezeDashes]
    split
    · rename_i hdd
      simp only [Bool.and_eq_true, decide_eq_true_eq] at hdd
      rcases List.mem_cons.mp hm with rfl | hm2
      · exact absurd hdd.1 hx
      · exact mem_squeezeDashes x hx (d :: rest) hm2
    · rcases List.mem_cons.mp hm with rfl | hm2
      · exact List.mem_cons_self _ _
      · exact List.mem_cons_of_mem _ (mem_squeezeDashes x hx (d :: rest) hm2)

lemma trimDashes_ne_nil (cs : List Char) (x : Char) (hx : x ≠ '-') (hm : x ∈ cs) :
    trimDashes cs ≠ [] := by
  unfold trimDashes
  intro h
  rw [List.reverse_eq_nil_iff, List.dropWhile_eq_nil_iff] at h
  have hxdrop : x ∈ cs.dropWhile (fun c => c = '-') := by
    rw [← List.takeWhile_append_dropWhile (fun c => decide (c = '-')) cs] at hm
    rcases List.mem_append.mp hm with h1 | h2
    · have := List.mem_takeWhile_imp h1
      simp only [decide_eq_true_eq] at this
      exact absurd this hx
    · exact h2
  have := h x (List.mem_reverse.mpr hxdrop)
  simp only [decide_eq_true_eq] at this
  exact hx this

lemma sanitizeBinName_ne_empty (s : String) (c : Char) (hc : c ∈ s.data)
    (hsafe : isSafeChar c.toLower = true) : sanitizeBinName s ≠ "" := by
  unfold sanitizeBinName
  intro h
  have hdata : trimDashes (squeezeDashes (dashify (s.data.map Char.toLower))) = [] := by
    have := congrArg String.data h
    simpa using this
  have h1 : c.toLower ∈ s.data.map Char.toLower := List.mem_map_of_mem Char.toLower hc
  have h2 : c.toLower ∈ dashify (s.data.map Char.toLower) := by
    unfold dashify
    have hmem := List.mem_map_of_mem (fun x => if isSafeChar x then x else '-') h1
    simpa [hsafe] using hmem
  have hnd : c.toLower ≠ '-' := by
    intro hh
    rw [hh] at hsafe
    exact absurd hsafe (by decide)
  have h3 := mem_squeezeDashes c.toLower hnd _ h2
  exact trimDashes_ne_nil _ c.toLower hnd h3 hdata

lemma parseBinaryPath_eq (file cwd : String) :
    parseBinaryPath file cwd =
      if binCommandName cwd file = "" then
        Except.error ("Invalid name for binary file: " ++ file)
      else
        Except.ok
          { parsedPath := stripBin (pathRelative cwd file),
            name := binCommandName cwd file } := rfl

/-! ### Facts about records, lookups and the entry sort -/

lemma recordSet_fresh {V : Type} (k : String) (v : V) :
    ∀ m : List (String × V), (∀ p ∈ m, p.1 ≠ k) → recordSet m k v = m ++ [(k, v)]
  | [], _ => rfl
  | (k', v') :: rest, h => by
    rw [recordSet, if_neg (h (k', v') (List.mem_cons_self _ _))]
    rw [recordSet_fresh k v rest (fun p hp => h p (List.mem_cons_of_mem _ hp))]
    rfl

lemma mem_keys_recordSet {V : Type} (k x : String) (v : V) :
    ∀ m : List (String × V),
      x ∈ (recordSet m k v).map Prod.fst → x ∈ m.map Prod.fst ∨ x = k
  | [], h => by
    rw [recordSet, List.map_singleton] at h
    exact Or.inr (List.mem_singleton.mp h)
  | (k', v') :: rest, h => by
    rw [recordSet] at h
    by_cases hk : k' = k
    · rw [if_pos hk, List.map_cons] at h
      rcases List.mem_cons.mp h with h1 | h1
      · exact Or.inr h1
      · exact Or.inl (List.mem_cons_of_mem _ h1)
    · rw [if_neg hk, List.map_cons] at h
      rcases List.mem_cons.mp h with h1 | h1
      · exact Or.inl (by rw [h1, List.map_cons]; exact List.mem_cons_self _ _)
      · rcases mem_keys_recordSet k x v rest h1 with h2 | h2
        · exact Or.inl (by rw [List.map_cons]; exact List.mem_cons_of_mem _ h2)
        · exact Or.inr h2

lemma nodup_keys_recordSet {V : Type} (k : String) (v : V) :
    ∀ m : List (String × V),
      (m.map Prod.fst).Nodup → ((recordSet m k v).map Prod.fst).Nodup
  | [], _ => by simp [recordSet]
  | (k', v') :: rest, h => by
    rw [recordSet]
    simp only [List.map_cons, List.nodup_cons] at h
    by_cases hk : k' = k
    · rw [if_pos hk]
      subst hk
      simpa using h
    · rw [if_neg hk]
      simp only [List.map_cons, List.nodup_cons]
      refine ⟨fun hmem => ?_, nodup_keys_recordSet k v rest h.2⟩
      rcases mem_keys_recordSet k k' v rest hmem with h2 | h2
      · exact h.1 h2
      · exact hk h2

lemma lookupKey_recordSet_self {V : Type} (k : String) (v : V) :
    ∀ m : List (String × V), lookupKey (recordSet m k v) k = some v
  | [] => by simp [recordSet, lookupKey]
  | (k', v') :: rest => by
    rw [recordSet]
    by_cases hk : k' = k
    · rw [if_pos hk, lookupKey, if_pos rfl]
    · rw [if_neg hk, lookupKey, if_neg hk]
      exact lookupKey_recordSet_self k v rest

lemma lookupKey_recordSet_ne {V : Type} (k : String) (v : V) (k' : String)
    (hne : k ≠ k') :
    ∀ m : List (String × V), lookupKey (recordSet m k v) k' = lookupKey m k'
  | [] => by simp [recordSet, lookupKey, hne]
  | (a, b) :: rest => by
    rw [recordSet]
    by_cases hk : a = k
    · rw [if_pos hk, lookupKey, if_neg hne, lookupKey, if_neg (hk ▸ hne)]
    · rw [if_neg hk, lookupKey, lookupKey]
      by_cases ha : a = k'
      · rw [if_pos ha, if_pos ha]
      · rw [if_neg ha, if_neg ha]
        exact lookupKey_recordSet_ne k v k' hne rest

lemma lookupKey_mem {V : Type} (k : String) (v : V) :
    ∀ m : List (String × V), lookupKey m k = some v → (k, v) ∈ m
  | [], h => by cases h
  | (k', v') :: rest, h => by
    rw [lookupKey] at h
    by_cases hk : k' = k
    · rw [if_pos hk] at h
      cases h
      exact hk ▸ List.mem_cons_self _ _
    · rw [if_neg hk] at h
      exact List.mem_cons_of_mem _ (lookupKey_mem k v rest h)

lemma lookupKey_of_mem_nodup {V : Type} (k : String) (v : V) :
    ∀ m : List (String × V), (m.map Prod.fst).Nodup → (k, v) ∈ m → lookupKey m k = some v
  | [], _, hm => by cases hm
  | (k', v') :: rest, hnd, hm => by
    rw [List.map_cons, List.nodup_cons] at hnd
    rcases List.mem_cons.mp hm with heq | hrest
    · cases heq
      rw [lookupKey, if_pos rfl]
    · have hk : k' ≠ k := fun hh => hnd.1 (by
        show (k', v').1 ∈ List.map Prod.fst rest
        rw [show ((k', v') : String × V).1 = k' from rfl, hh]
        exact List.mem_map_of_mem Prod.fst hrest)
      rw [lookupKey, if_neg hk]
      exact lookupKey_of_mem_nodup k v rest hnd.2 hrest

lemma lookupKey_eq_none {V : Type} (k : String) :
    ∀ m : List (String × V), lookupKey m k = none ↔ k ∉ m.map Prod.fst
  | [] => by simp [lookupKey]
  | (k', v') :: rest => by
    rw [lookupKey]
    by_cases hk : k' = k
    · simp [hk]
    · simp [hk, lookupKey_eq_none k rest, Ne.symm hk]

lemma lookupKey_perm {V : Type} (m m' : List (String × V)) (h : m.Perm m')
    (hnd : (m.map Prod.fst).Nodup) (k : String) : lookupKey m k = lookupKey m' k := by
  cases hv : lookupKey m k with
  | some v =>
    exact (lookupKey_of_mem_nodup k v m' ((h.map Prod.fst).nodup hnd)
      (h.mem_iff.mp (lookupKey_mem k v m hv))).symm
  | none =>
    rw [lookupKey_eq_none] at hv
    rw [eq_comm, lookupKey_eq_none]
    intro hmem
    exact hv ((h.map Prod.fst).mem_iff.mpr hmem)

lemma foldl_recordSet_eq_append {V : Type} (e : String → String × V) :
    ∀ (files : List String) (acc : List (String × V)),
      (acc.map Prod.fst ++ files.map (fun f => (e f).1)).Nodup →
      files.foldl (fun m f => recordSet m (e f).1 (e f).2) acc = acc ++ files.map e
  | [], acc => by simp
  | f :: fs, acc => by
    intro h
    rw [List.foldl_cons]
    have hfresh : ∀ p ∈ acc, p.1 ≠ (e f).1 := by
      intro p hp hpk
      rw [List.map_cons, List.nodup_append] at h
      exact h.2.2 (hpk ▸ List.mem_map_of_mem Prod.fst hp) (List.mem_cons_self _ _)
    have h2 : ((acc ++ [((e f).1, (e f).2)]).map Prod.fst
        ++ fs.map (fun g => (e g).1)).Nodup := by
      rw [List.map_append, List.append_assoc]
      simpa using h
    rw [recordSet_fresh _ _ _ hfresh,
      foldl_recordSet_eq_append e fs (acc ++ [((e f).1, (e f).2)]) h2,
      List.append_assoc]
    rfl

lemma nodup_keys_foldl_recordSet {V : Type} (e : String → String × V) :
    ∀ (files : List String) (acc : List (String × V)),
      (acc.map Prod.fst).Nodup →
      ((files.foldl (fun m f => recordSet m (e f).1 (e f).2) acc).map Prod.fst).Nodup
  | [], _ => fun h => h
  | f :: fs, acc => fun h => by
    rw [List.foldl_cons]
    exact nodup_keys_foldl_recordSet e fs _ (nodup_keys_recordSet _ _ _ h)

lemma lookupKey_foldl_of_ne {V : Type} (e : String → String × V) :
    ∀ (files : List String) (acc : List (String × V)) (k : String),
      (∀ f ∈ files, (e f).1 ≠ k) →
      lookupKey (files.foldl (fun m f => recordSet m (e f).1 (e f).2) acc) k
        = lookupKey acc k
  | [], _, _ => fun _ => rfl
  | f :: fs, acc, k => fun h => by
    rw [List.foldl_cons]
    rw [lookupKey_foldl_of_ne e fs _ k (fun g hg => h g (List.mem_cons_of_mem _ hg))]
    exact lookupKey_recordSet_ne (e f).1 (e f).2 k (h f (List.mem_cons_self _ _)) acc

lemma binRecordLoop_ok (cwd outDir : String) :
    ∀ (files : List String) (m : List (String × String)),
      (∀ f ∈ files, binCommandName cwd f ≠ "") →
      binRecordLoop cwd outDir files m
        = Except.ok (files.foldl
            (fun acc f => recordSet acc (binEntry cwd outDir f).1 (binEntry cwd outDir f).2) m)
  | [], _ => fun _ => rfl
  | f :: fs, m => fun h => by
    rw [binRecordLoop, parseBinaryPath_eq, if_neg (h f (List.mem_cons_self f fs))]
    show binRecordLoop cwd outDir fs
        (recordSet m (binCommandName cwd f)
          ("./" ++ outDir ++ "/" ++ stripBin (pathRelative cwd f) ++ ".bin.js"))
      = _
    rw [binRecordLoop_ok cwd outDir fs _ (fun g hg => h g (List.mem_cons_of_mem f hg))]
    rw [List.foldl_cons]
    rfl

lemma sortEntries_sorted {V : Type} (cmp : String → String → Ordering)
    (htotal : ∀ a b : String, ¬ cmp a b = Ordering.gt ∨ ¬ cmp b a = Ordering.gt)
    (htrans : ∀ a b c : String, ¬ cmp a b = Ordering.gt → ¬ cmp b c = Ordering.gt →
      ¬ cmp a c = Ordering.gt)
    (m : List (String × V)) : List.Sorted (entryLe cmp) (sortEntries cmp m) := by
  have it : IsTotal (String × V) (entryLe cmp) := ⟨fun a b => htotal a.1 b.1⟩
  have itr : IsTrans (String × V) (entryLe cmp) := ⟨fun a b c => htrans a.1 b.1 c.1⟩
  exact @List.sorted_insertionSort _ _ _ it itr m

lemma sorted_keys_of_sorted {V : Type} (cmp : String → String → Ordering)
    (l : List (String × V)) (h : List.Sorted (entryLe cmp) l) :
    List.Sorted (fun a b : String => ¬ cmp a b = Ordering.gt) (l.map Prod.fst) :=
  List.Pairwise.map Prod.fst (fun a b hab => hab) h

lemma eq_of_perm_of_sorted_distinct {α : Type} (r : α → α → Prop) (l₁ : List α) :
    ∀ l₂ : List α, l₁.Perm l₂ → List.Sorted r l₁ → List.Sorted r l₂ →
      (∀ a ∈ l₁, ∀ b ∈ l₁, r a b → r b a → a = b) → l₁ = l₂ := by
  induction l₁ with
  | nil =>
    intro l₂ hp _ _ _
    exact hp.nil_eq
  | cons a t ih =>
    intro l₂ hp hs₁ hs₂ hanti
    cases l₂ with
    | nil => exact absurd hp.symm.nil_eq (by simp)
    | cons b t₂ =>
      have hab : a = b := by
        by_contra hab
        have ha2 : a ∈ b :: t₂ := hp.mem_iff.mp (List.mem_cons_self a t)
        have hb1 : b ∈ a :: t := hp.mem_iff.mpr (List.mem_cons_self b t₂)
        have hat : a ∈ t₂ := by
          rcases List.mem_cons.mp ha2 with h | h
          · exact absurd h hab
          · exact h
        have hbt : b ∈ t := by
          rcases List.mem_cons.mp hb1 with h | h
          · exact absurd h (fun hh => hab hh.symm)
          · exact h
        have hrab : r a b := (List.sorted_cons.mp hs₁).1 b hbt
        have hrba : r b a := (List.sorted_cons.mp hs₂).1 a hat
        exact hab (hanti a (List.mem_cons_self a t) b hb1 hrab hrba)
      subst hab
      have ht : t.Perm t₂ := hp.cons_inv
      have := ih t₂ ht (List.sorted_cons.mp hs₁).2 (List.sorted_cons.mp hs₂).2
        (fun x hx y hy hr hr' =>
          hanti x (List.mem_cons_of_mem _ hx) y (List.mem_cons_of_mem _ hy) hr hr')
      rw [this]

lemma entry_eq_of_nodup_keys {V : Type} (l : List (String × V))
    (h : (l.map Prod.fst).Nodup) (a b : String × V)
    (ha : a ∈ l) (hb : b ∈ l) (hk : a.1 = b.1) : a = b := by
  induction l with
  | nil => cases ha
  | cons c rest ih =>
    simp only [List.map_cons, List.nodup_cons] at h
    rcases List.mem_cons.mp ha with rfl | ha2 <;> rcases List.mem_cons.mp hb with rfl | hb2
    · rfl
    · exact absurd (hk ▸ List.mem_map_of_mem Prod.fst hb2) h.1
    · exact absurd (hk ▸ List.mem_map_of_mem Prod.fst ha2) h.1
    · exact ih h.2 ha2 hb2

lemma lookupKey_build_sort {V : Type} (cmp : String → String → Ordering)
    (e : String → String × V) (files1 files2 : List String) (f : String)
    (hlater : ∀ g ∈ files2, (e g).1 ≠ (e f).1) :
    lookupKey (sortEntries cmp ((files1 ++ f :: files2).foldl
        (fun m g => recordSet m (e g).1 (e g).2) [])) (e f).1 = some (e f).2 := by
  have hnodup : (((files1 ++ f :: files2).foldl
      (fun m g => recordSet m (e g).1 (e g).2) []).map Prod.fst).Nodup :=
    nodup_keys_foldl_recordSet e _ [] (by simp)
  have hlook : lookupKey ((files1 ++ f :: files2).foldl
      (fun m g => recordSet m (e g).1 (e g).2) []) (e f).1 = some (e f).2 := by
    rw [List.foldl_append, List.foldl_cons]
    rw [lookupKey_foldl_of_ne e files2 _ (e f).1 hlater]
    exact lookupKey_recordSet_self (e f).1 (e f).2 _
  have hperm := List.perm_insertionSort (entryLe cmp)
    ((files1 ++ f :: files2).foldl (fun m g => recordSet m (e g).1 (e g).2) [])
  have hsortnd := ((hperm.map Prod.fst).symm).nodup hnodup
  unfold sortEntries
  rw [lookupKey_perm _ _ hperm hsortnd (e f).1]
  exact hlook

lemma generateBin_ok_of_all (cmp : String → String → Ordering)
    (bfiles : List String) (cwd outDir : String)
    (hok : ∀ g ∈ bfiles, binCommandName cwd g ≠ "")
    (hnodup : (bfiles.map (fun g => (binEntry cwd outDir g).1)).Nodup) :
    generateBin cmp bfiles cwd outDir
      = Except.ok (sortEntries cmp (bfiles.map (binEntry cwd outDir))) := by
  unfold generateBin binRecordM
  rw [binRecordLoop_ok cwd outDir bfiles [] hok]
  show Except.ok (sortEntries cmp (bfiles.foldl
      (fun acc g => recordSet acc (binEntry cwd outDir g).1 (binEntry cwd outDir g).2) [])) = _
  rw [foldl_recordSet_eq_append (binEntry cwd outDir) bfiles [] (by simpa using hnodup)]
  rw [List.nil_append]

lemma sortEntries_map_perm_eq {V : Type} (cmp : String → String → Ordering)
    (htotal : ∀ a b : String, ¬ cmp a b = Ordering.gt ∨ ¬ cmp b a = Ordering.gt)
    (htrans : ∀ a b c : String, ¬ cmp a b = Ordering.gt → ¬ cmp b c = Ordering.gt →
      ¬ cmp a c = Ordering.gt)
    (hanti : ∀ a b : String, ¬ cmp a b = Ordering.gt → ¬ cmp b a = Ordering.gt → a = b)
    (e : String → String × V) (files files' : List String) (hperm : files.Perm files')
    (hnodup : (files.map (fun g => (e g).1)).Nodup) :
    sortEntries cmp (files.map e) = sortEntries cmp (files'.map e) := by
  apply eq_of_perm_of_sorted_distinct (entryLe cmp)
  · exact (List.perm_insertionSort _ _).trans
      ((hperm.map e).trans (List.perm_insertionSort _ _).symm)
  · exact sortEntries_sorted cmp htotal htrans _
  · exact sortEntries_sorted cmp htotal htrans _
  · intro a ha b hb hab hba
    have ha' := (List.perm_insertionSort (entryLe cmp) (files.map e)).mem_iff.mp ha
    have hb' := (List.perm_insertionSort (entryLe cmp) (files.map e)).mem_iff.mp hb
    have hk : a.1 = b.1 := hanti a.1 b.1 hab hba
    have hnd : ((files.map e).map Prod.fst).Nodup := by
      rw [List.map_map]
      exact hnodup
    exact entry_eq_of_nodup_keys (files.map e) hnd a b ha' hb' hk

lemma collectLoop_spec (readFile : String → String) (cwd : String) :
    ∀ (files : List String) (acc : List String × List String),
      collectLoop readFile cwd files acc
        = (acc.1 ++ files.filterMap (fun file =>
              match validateBinaryFile readFile (pathJoin cwd file) with
              | Except.error e => some e
              | Except.ok _ => none),
           acc.2 ++ files.filter (fun file =>
              (validateBinaryFile readFile (pathJoin cwd file)).toBool))
  | [], acc => by simp [collectLoop]
  | f :: fs, acc => by
    rw [collectLoop]
    cases hv : validateBinaryFile readFile (pathJoin cwd f) with
    | ok u =>
      show collectLoop readFile cwd fs (acc.1, acc.2 ++ [f]) = _
      rw [collectLoop_spec readFile cwd fs (acc.1, acc.2 ++ [f]),
        List.filterMap_cons, List.filter_cons]
      simp [hv, Except.toBool, List.append_assoc]
    | error e =>
      show collectLoop readFile cwd fs (acc.1 ++ [e], acc.2) = _
      rw [collectLoop_spec readFile cwd fs (acc.1 ++ [e], acc.2),
        List.filterMap_cons, List.filter_cons]
      simp [hv, Except.toBool, List.append_assoc]

/-! ### Claim theorems -/

/-- C3: `updatePackageJson` always installs the computed `exports`
mapping, an empty one included, while the computed `bin` mapping is
installed only when non-empty and the `bin` field is otherwise absent
(`none`) from the result, whatever `bin` the incoming manifest carried. -/
theorem updatePackageJson_bin_policy (pkg : PackageJson)
    (E : List (String × ExportRecord)) (B : List (String × String)) :
    (updatePackageJson pkg E B).exports = some E
    ∧ (B = [] → (updatePackageJson pkg E B).bin = none)
    ∧ (B ≠ [] → (updatePackageJson pkg E B).bin = some B) := by
  refine ⟨rfl, fun h => by subst h; rfl, fun h => ?_⟩
  have : B.length ≠ 0 := fun hl => h (List.length_eq_zero.mp hl)
  simp [updatePackageJson, this]

/-- Witness for C3: a manifest whose existing `bin` is non-empty loses the
field entirely under an empty computed `bin` while `exports` is set to the
empty mapping, and a non-empty computed `bin` is installed as given. -/
theorem updatePackageJson_bin_policy_witness :
    (updatePackageJson { bin := some [("old", "x.js")] } [] []).bin = none
    ∧ (updatePackageJson { bin := some [("old", "x.js")] } [] []).exports = some []
    ∧ (updatePackageJson {} [] [("a", "b.js")]).bin = some [("a", "b.js")] :=
  ⟨(updatePackageJson_bin_policy { bin := some [("old", "x.js")] } [] []).2.1 rfl,
   (updatePackageJson_bin_policy { bin := some [("old", "x.js")] } [] []).1,
   (updatePackageJson_bin_policy {} [] [("a", "b.js")]).2.2 (by decide)⟩

/-- C9: `updatePackageJson` is a pure transform — in this embedding it is
a total function returning a new `PackageJson` value, the argument being
untouched by construction — and the whole result is determined as: the
computed `exports`, the computed `bin` (or absence), and every other
field (`rest`) copied verbatim from the argument. -/
theorem updatePackageJson_pure_frame (pkg : PackageJson)
    (E : List (String × ExportRecord)) (B : List (String × String)) :
    updatePackageJson pkg E B
      = { exports := some E
          bin := if B.length ≠ 0 then some B else none
          rest := pkg.rest }
    ∧ (updatePackageJson pkg E B).rest = pkg.rest :=
  ⟨rfl, rfl⟩

/-- C1: for a public file path the export key computed by
`parseExportPath` is exactly the spec's case analysis (`specExportKey`)
applied to the suffix-stripped relative path — sole `index` segment `.`,
final `index` segment after others `./` plus the other segments joined by
`/`, otherwise `./` plus the full stripped path — and the spec's three
examples come out as stated. -/
theorem parseExportPath_matches_spec (file cwd : String)
    (h : strEndsWith file ".pub.ts" = true ∨ strEndsWith file ".pub.tsx" = true) :
    (parseExportPath file cwd).name = specExportKey (parseExportPath file cwd).parsedPath
    ∧ parseExportPath "index.pub.ts" cwd = { parsedPath := "index", name := "." }
    ∧ parseExportPath "src/index.pub.ts" cwd = { parsedPath := "src/index", name := "./src" }
    ∧ parseExportPath "src/utils.pub.ts" cwd
        = { parsedPath := "src/utils", name := "./src/utils" } :=
  ⟨exportName_eq_specExportKey (stripPub file), rfl, rfl, rfl⟩

/-- Witness for C1 at a nested index file: the hypothesis holds by
computation and the computed key agrees with the spec's case analysis. -/
theorem parseExportPath_matches_spec_witness :
    (parseExportPath "src/index.pub.ts" "/repo").name
        = specExportKey (parseExportPath "src/index.pub.ts" "/repo").parsedPath
    ∧ specExportKey "src/index" = "./src" :=
  ⟨(parseExportPath_matches_spec "src/index.pub.ts" "/repo" (Or.inl (by decide))).1,
   by decide⟩

/-- C7: `parseExportPath` is idempotent under reparsing its own output's
reconstructed path: for a path ending in a public suffix, appending that
suffix back onto the returned `parsedPath` and parsing again with the
same base directory returns the same `ParsedFilePath`, because stripping
`s ++ suffix` always yields `s` again. -/
theorem parseExportPath_idempotent (p cwd : String) :
    (strEndsWith p ".pub.ts" = true →
      parseExportPath ((parseExportPath p cwd).parsedPath ++ ".pub.ts") cwd
        = parseExportPath p cwd)
    ∧ (strEndsWith p ".pub.tsx" = true →
      parseExportPath ((parseExportPath p cwd).parsedPath ++ ".pub.tsx") cwd
        = parseExportPath p cwd) :=
  ⟨fun _ => parseExportPath_congr _ p cwd (stripPub_append_ts (stripPub p)),
   fun _ => parseExportPath_congr _ p cwd (stripPub_append_tsx (stripPub p))⟩

/-- Witness for C7 on both public suffixes at concrete paths. -/
theorem parseExportPath_idempotent_witness :
    parseExportPath ((parseExportPath "src/index.pub.ts" "/r").parsedPath ++ ".pub.ts") "/r"
        = parseExportPath "src/index.pub.ts" "/r"
    ∧ parseExportPath ((parseExportPath "a.pub.tsx" "/r").parsedPath ++ ".pub.tsx") "/r"
        = parseExportPath "a.pub.tsx" "/r" :=
  ⟨(parseExportPath_idempotent "src/index.pub.ts" "/r").1 (by decide),
   (parseExportPath_idempotent "a.pub.tsx" "/r").2 (by decide)⟩

/-- C4: for a binary file path whose suffix-stripped last segment holds
at least one alphanumeric character, `parseBinaryPath` succeeds and the
command name is that last segment run through the sanitizing pipeline
(`binCommandName`: lower-case, each maximal non-`[a-z0-9]` run to one
hyphen, leading/trailing hyphens stripped); the spec's example
`src/my-cli-tool.bin.ts` yields `my-cli-tool`. -/
theorem parseBinaryPath_command_name (file cwd : String)
    (hsuffix : strEndsWith file ".bin.ts" = true ∨ strEndsWith file ".bin.tsx" = true)
    (c : Char) (hc : c ∈ ((splitSlash (stripBin (pathRelative cwd file))).getLastD "").data)
    (hsafe : isSafeChar c.toLower = true) :
    parseBinaryPath file cwd
      = Except.ok
          { parsedPath := stripBin (pathRelative cwd file),
            name := binCommandName cwd file }
    ∧ parseBinaryPath "src/my-cli-tool.bin.ts" cwd
      = Except.ok { parsedPath := "src/my-cli-tool", name := "my-cli-tool" } := by
  constructor
  · have hne : binCommandName cwd file ≠ "" :=
      sanitizeBinName_ne_empty _ c hc hsafe
    rw [parseBinaryPath_eq, if_neg hne]
  · rfl

/-- Witness for C4 at the spec's example path, with `c` the letter `m` of
the last segment. -/
theorem parseBinaryPath_command_name_witness :
    parseBinaryPath "src/my-cli-tool.bin.ts" "/r"
      = Except.ok { parsedPath := "src/my-cli-tool", name := "my-cli-tool" } :=
  (parseBinaryPath_command_name "src/my-cli-tool.bin.ts" "/r" (Or.inl (by decide))
    'm' (by decide) (by decide)).2

/-- C5: `parseBinaryPath` fails exactly when the sanitized command name is
empty, its error message carries the original input path verbatim, and
every other input returns normally with the sanitized name; in particular
the empty input path fails with an error naming the (empty) input. -/
theorem parseBinaryPath_error_iff (file cwd : String) :
    (parseBinaryPath file cwd = Except.error ("Invalid name for binary file: " ++ file)
      ↔ binCommandName cwd file = "")
    ∧ (binCommandName cwd file ≠ ""
      ↔ parseBinaryPath file cwd
          = Except.ok
              { parsedPath := stripBin (pathRelative cwd file),
                name := binCommandName cwd file })
    ∧ parseBinaryPath "" cwd = Except.error ("Invalid name for binary file: " ++ "") := by
  refine ⟨?_, ?_, rfl⟩
  · rw [parseBinaryPath_eq]
    by_cases h : binCommandName cwd file = "" <;> simp [h]
  · rw [parseBinaryPath_eq]
    by_cases h : binCommandName cwd file = "" <;> simp [h]

/-- C6: silent last-write-wins on key collisions in both generators: with
a file `f` placed after `files1` and followed only by files whose keys
differ from `f`'s, the resulting mapping holds exactly `f`'s record under
`f`'s key — whatever earlier entries (collisions included) `files1`
produced — and no error arises from the collision (for `generateBin`,
under the success of every name parse). -/
theorem generate_last_write_wins (cmp : String → String → Ordering)
    (files1 files2 : List String) (f cwd outDir declarationDir : String) :
    ((∀ g ∈ files2,
        (exportEntry cwd outDir declarationDir g).1
          ≠ (exportEntry cwd outDir declarationDir f).1) →
      lookupKey (generateExports cmp (files1 ++ f :: files2) cwd outDir declarationDir)
          (exportEntry cwd outDir declarationDir f).1
        = some (exportEntry cwd outDir declarationDir f).2)
    ∧ ((∀ g ∈ files1 ++ f :: files2, binCommandName cwd g ≠ "") →
      (∀ g ∈ files2, (binEntry cwd outDir g).1 ≠ (binEntry cwd outDir f).1) →
      ∃ m, generateBin cmp (files1 ++ f :: files2) cwd outDir = Except.ok m
        ∧ lookupKey m (binEntry cwd outDir f).1 = some (binEntry cwd outDir f).2) := by
  constructor
  · intro hlater
    exact lookupKey_build_sort cmp (exportEntry cwd outDir declarationDir)
      files1 files2 f hlater
  · intro hok hlater
    refine ⟨sortEntries cmp ((files1 ++ f :: files2).foldl
        (fun acc g => recordSet acc (binEntry cwd outDir g).1 (binEntry cwd outDir g).2) []),
      ?_, ?_⟩
    · unfold generateBin binRecordM
      rw [binRecordLoop_ok cwd outDir (files1 ++ f :: files2) [] hok]
    · exact lookupKey_build_sort cmp (binEntry cwd outDir) files1 files2 f hlater

/-- Witness for C6: `a/index.pub.ts` and `a.pub.ts` both normalize to key
`./a`; with `a.pub.ts` later in the input, the mapping holds its record
(`./dist/a.pub.js`), not the earlier file's; likewise `x/tool.bin.ts` and
`tool.bin.ts` both normalize to command `tool` and the later file wins. -/
theorem generate_last_write_wins_witness :
    lookupKey (generateExports codeCmp ["a/index.pub.ts", "a.pub.ts"] "" "dist" "types")
        (exportEntry "" "dist" "types" "a.pub.ts").1
      = some (exportEntry "" "dist" "types" "a.pub.ts").2
    ∧ (exportEntry "" "dist" "types" "a.pub.ts")
        = ("./a", { default := "./dist/a.pub.js", types := "./types/a.pub.d.ts" })
    ∧ (exportEntry "" "dist" "types" "a/index.pub.ts").1 = "./a"
    ∧ (∃ m, generateBin codeCmp ["x/tool.bin.ts", "tool.bin.ts"] "" "dist" = Except.ok m
        ∧ lookupKey m (binEntry "" "dist" "tool.bin.ts").1
            = some (binEntry "" "dist" "tool.bin.ts").2)
    ∧ binEntry "" "dist" "tool.bin.ts" = ("tool", "./dist/tool.bin.js")
    ∧ (binEntry "" "dist" "x/tool.bin.ts").1 = "tool" :=
  ⟨(generate_last_write_wins codeCmp ["a/index.pub.ts"] [] "a.pub.ts" "" "dist" "types").1
      (by simp),
   by decide, by decide,
   (generate_last_write_wins codeCmp ["x/tool.bin.ts"] [] "tool.bin.ts" "" "dist" "types").2
      (by decide) (by simp),
   by decide, by decide⟩

/-- C2 as frozen is false: the two distinct files `a.pub.ts` and
`a/index.pub.ts` both normalize to export key `./a`, so swapping their
order swaps which record the mapping holds — `generateExports` is not
independent of input order on colliding inputs. -/
theorem generateExports_not_order_independent :
    ¬ (generateExports codeCmp ["a.pub.ts", "a/index.pub.ts"] "" "dist" "dist"
       = generateExports codeCmp ["a/index.pub.ts", "a.pub.ts"] "" "dist" "dist") := by
  decide

/-- C2 amended: the generated mappings always come out with keys in
ascending comparator order, and they are independent of the order of the
input list provided no two distinct inputs normalize to the same key (for
`generateBin`, provided also every name parse succeeds — an error would
otherwise name whichever bad file comes first); the claim's example
yields keys `["./a", "./z"]`. With colliding keys the later input wins
(see the counterexample), which is the only restriction added. -/
theorem generate_sorted_and_order_independent (cmp : String → String → Ordering)
    (htotal : ∀ a b : String, ¬ cmp a b = Ordering.gt ∨ ¬ cmp b a = Ordering.gt)
    (htrans : ∀ a b c : String, ¬ cmp a b = Ordering.gt → ¬ cmp b c = Ordering.gt →
      ¬ cmp a c = Ordering.gt)
    (hanti : ∀ a b : String, ¬ cmp a b = Ordering.gt → ¬ cmp b a = Ordering.gt → a = b)
    (files files' bfiles bfiles' : List String) (cwd outDir declarationDir : String) :
    List.Sorted (fun a b : String => ¬ cmp a b = Ordering.gt)
      ((generateExports cmp files cwd outDir declarationDir).map Prod.fst)
    ∧ (files.Perm files' →
        (files.map (fun g => (exportEntry cwd outDir declarationDir g).1)).Nodup →
        generateExports cmp files cwd outDir declarationDir
          = generateExports cmp files' cwd outDir declarationDir)
    ∧ (∀ m, generateBin cmp bfiles cwd outDir = Except.ok m →
        List.Sorted (fun a b : String => ¬ cmp a b = Ordering.gt) (m.map Prod.fst))
    ∧ (bfiles.Perm bfiles' →
        (∀ g ∈ bfiles, binCommandName cwd g ≠ "") →
        (bfiles.map (fun g => (binEntry cwd outDir g).1)).Nodup →
        generateBin cmp bfiles cwd outDir = generateBin cmp bfiles' cwd outDir)
    ∧ (generateExports codeCmp ["z.pub.ts", "a.pub.ts"] cwd "dist" "dist").map Prod.fst
        = ["./a", "./z"] := by
  refine ⟨?_, ?_, ?_, ?_, rfl⟩
  · exact sorted_keys_of_sorted cmp _ (sortEntries_sorted cmp htotal htrans _)
  · intro hperm hnodup
    have h1 : exportsRecord files cwd outDir declarationDir
        = files.map (exportEntry cwd outDir declarationDir) := by
      show files.foldl _ [] = _
      rw [foldl_recordSet_eq_append (exportEntry cwd outDir declarationDir) files []
        (by simpa using hnodup)]
      exact List.nil_append _
    have hnodup' : (files'.map
        (fun g => (exportEntry cwd outDir declarationDir g).1)).Nodup :=
      (hperm.map _).nodup hnodup
    have h1' : exportsRecord files' cwd outDir declarationDir
        = files'.map (exportEntry cwd outDir declarationDir) := by
      show files'.foldl _ [] = _
      rw [foldl_recordSet_eq_append (exportEntry cwd outDir declarationDir) files' []
        (by simpa using hnodup')]
      exact List.nil_append _
    show sortEntries cmp (exportsRecord files cwd outDir declarationDir)
      = sortEntries cmp (exportsRecord files' cwd outDir declarationDir)
    rw [h1, h1']
    exact sortEntries_map_perm_eq cmp htotal htrans hanti
      (exportEntry cwd outDir declarationDir) files files' hperm hnodup
  · intro m hm
    unfold generateBin at hm
    cases hrec : binRecordM bfiles cwd outDir with
    | error e =>
      rw [hrec] at hm
      cases hm
    | ok bin =>
      rw [hrec] at hm
      cases hm
      exact sorted_keys_of_sorted cmp _ (sortEntries_sorted cmp htotal htrans bin)
  · intro hperm hok hnodup
    have hok' : ∀ g ∈ bfiles', binCommandName cwd g ≠ "" :=
      fun g hg => hok g (hperm.mem_iff.mpr hg)
    have hnodup' : (bfiles'.map (fun g => (binEntry cwd outDir g).1)).Nodup :=
      (hperm.map _).nodup hnodup
    rw [generateBin_ok_of_all cmp bfiles cwd outDir hok hnodup,
      generateBin_ok_of_all cmp bfiles' cwd outDir hok' hnodup']
    exact congrArg Except.ok (sortEntries_map_perm_eq cmp htotal htrans hanti
      (binEntry cwd outDir) bfiles bfiles' hperm hnodup)

/-- Witness for the amended C2: with the code-point comparator (which
satisfies all three comparator laws), swapping collision-free inputs
leaves both generators' outputs unchanged. -/
theorem generate_sorted_and_order_independent_witness :
    generateExports codeCmp ["b.pub.ts", "a.pub.ts"] "" "dist" "types"
      = generateExports codeCmp ["a.pub.ts", "b.pub.ts"] "" "dist" "types"
    ∧ generateBin codeCmp ["t.bin.ts", "s.bin.ts"] "" "dist"
      = generateBin codeCmp ["s.bin.ts", "t.bin.ts"] "" "dist" :=
  ⟨(generate_sorted_and_order_independent codeCmp codeCmp_total codeCmp_le_trans
      codeCmp_antisymm ["b.pub.ts", "a.pub.ts"] ["a.pub.ts", "b.pub.ts"]
      [] [] "" "dist" "types").2.1 (List.Perm.swap _ _ _) (by decide),
   (generate_sorted_and_order_independent codeCmp codeCmp_total codeCmp_le_trans
      codeCmp_antisymm [] [] ["t.bin.ts", "s.bin.ts"] ["s.bin.ts", "t.bin.ts"]
      "" "dist" "types").2.2.2.1 (List.Perm.swap _ _ _) (by decide) (by decide)⟩

/-- C8: shebang-validation errors are accumulated across all candidate
binary files (every failing candidate contributes its message, in order,
rather than aborting at the first), the failing files are excluded from
the files the `bin` mapping is generated from, dry-run mode only reports
them (the run returns the report, never a validation failure), and
outside dry-run mode a non-empty error list makes the run fail with the
single aggregated message — nothing is ever written (no `wrote` outcome). -/
theorem createExports_validation_policy (cmp : String → String → Ordering)
    (env : CreateExportsEnv) :
    (collectBinValidation env.readFile env.cwd env.binFiles).1
        = env.binFiles.filterMap (fun file =>
            match validateBinaryFile env.readFile (pathJoin env.cwd file) with
            | Except.error e => some e
            | Except.ok _ => none)
    ∧ (collectBinValidation env.readFile env.cwd env.binFiles).2
        = env.binFiles.filter (fun file =>
            (validateBinaryFile env.readFile (pathJoin env.cwd file)).toBool)
    ∧ (∀ m, generateBin cmp (collectBinValidation env.readFile env.cwd env.binFiles).2
          env.cwd env.outDir = Except.ok m →
        createExports cmp env true
          = RunOutcome.reported
              (generateExports cmp env.publicFiles env.cwd env.outDir env.declarationDir)
              m (collectBinValidation env.readFile env.cwd env.binFiles).1)
    ∧ ((collectBinValidation env.readFile env.cwd env.binFiles).1 ≠ [] →
        (∀ p, createExports cmp env false ≠ RunOutcome.wrote p)
        ∧ (∀ m, generateBin cmp (collectBinValidation env.readFile env.cwd env.binFiles).2
              env.cwd env.outDir = Except.ok m →
            createExports cmp env false
              = RunOutcome.threw ("Binary file validation failed:\n"
                  ++ String.intercalate "\n"
                    (collectBinValidation env.readFile env.cwd env.binFiles).1))) := by
  refine ⟨?_, ?_, ?_, ?_⟩
  · rw [show collectBinValidation env.readFile env.cwd env.binFiles
        = collectLoop env.readFile env.cwd env.binFiles ([], []) from rfl,
      collectLoop_spec env.readFile env.cwd env.binFiles ([], [])]
    simp
  · rw [show collectBinValidation env.readFile env.cwd env.binFiles
        = collectLoop env.readFile env.cwd env.binFiles ([], []) from rfl,
      collectLoop_spec env.readFile env.cwd env.binFiles ([], [])]
    simp
  · intro m hm
    simp only [createExports]
    rw [hm]
    simp
  · intro hne
    have hpos : 0 < (collectBinValidation env.readFile env.cwd env.binFiles).1.length :=
      List.length_pos.mpr hne
    constructor
    · intro p hp
      simp only [createExports] at hp
      cases hgen : generateBin cmp (collectBinValidation env.readFile env.cwd env.binFiles).2
          env.cwd env.outDir with
      | error e =>
        rw [hgen] at hp
        simp at hp
      | ok bin =>
        rw [hgen] at hp
        simp [hpos] at hp
    · intro m hm
      simp only [createExports]
      rw [hm]
      simp [hpos]

/-- Witness for C8: one candidate binary file without the node shebang —
the dry run reports its error and writes nothing, while the non-dry run
never writes and throws the aggregated message. -/
theorem createExports_validation_policy_witness :
    (∀ p, createExports codeCmp
        { pkg := {}, outDir := "dist", declarationDir := "dist", publicFiles := [],
          binFiles := ["bad.bin.ts"], readFile := fun _ => "console.log(1)", cwd := "/p" }
        false ≠ RunOutcome.wrote p)
    ∧ createExports codeCmp
        { pkg := {}, outDir := "dist", declarationDir := "dist", publicFiles := [],
          binFiles := ["bad.bin.ts"], readFile := fun _ => "console.log(1)", cwd := "/p" }
        true
      = RunOutcome.reported (generateExports codeCmp [] "/p" "dist" "dist")
          [] (collectBinValidation (fun _ => "console.log(1)") "/p" ["bad.bin.ts"]).1 :=
  ⟨((createExports_validation_policy codeCmp
      { pkg := {}, outDir := "dist", declarationDir := "dist", publicFiles := [],
        binFiles := ["bad.bin.ts"], readFile := fun _ => "console.log(1)",
        cwd := "/p" }).2.2.2 (by decide)).1,
   (createExports_validation_policy codeCmp
      { pkg := {}, outDir := "dist", declarationDir := "dist", publicFiles := [],
        binFiles := ["bad.bin.ts"], readFile := fun _ => "console.log(1)",
        cwd := "/p" }).2.2.1 [] rfl⟩

/-- C10: `parseExportPath` is total by construction (it returns a plain
`ParsedFilePath`, never an exception), and on the unguarded edge case of
an input equal to the base directory — an empty relative path — it
returns `parsedPath` `""` and key `"./"`: the empty string splits into
one non-`index` segment, so the non-index branch appends nothing. -/
theorem parseExportPath_empty_path (cwd : String) :
    parseExportPath "" cwd = { parsedPath := "", name := "./" } := rfl

end CreateExports
